import Mathlib

/-!
Verification of the namespaced object-store client of `storage.go`
(Go package `storage`).

The Go source is shallowly embedded: the S3 SDK is modelled as an abstract
`Backend` record of (bucket, key)-indexed operations returning `Except`,
`time.Time` is modelled as `Int` (`time.Time.After` becomes `<`, the zero
value `time.Time{}` becomes `0`), `[]byte` payloads are abstract `List Nat`,
and Go `error` values are strings (backend errors are arbitrary strings,
`fmt.Errorf("no files found")` is the literal string).  `filepath.Join` /
`filepath.Clean` (Unix separator, relative inputs — the only inputs the
client ever produces, since every joined path starts with a non-empty
environment tag and no leading slash) are modelled faithfully below.
-/

namespace Storage

/-! Basic string plumbing: Go strings are byte strings; every separator used
by the client is the one-byte `/`, so the `List Char` view is faithful. -/

theorem strExt {a b : String} (h : a.data = b.data) : a = b := by
  cases a
  cases b
  cases h
  rfl

theorem data_append (a b : String) : (a ++ b).data = a.data ++ b.data := by
  cases a
  cases b
  rfl

theorem data_mk (l : List Char) : (String.mk l).data = l := rfl

theorem strAppend_assoc (a b c : String) : a ++ b ++ c = a ++ (b ++ c) := by
  apply strExt
  simp only [data_append, List.append_assoc]

/-- Boolean "p is a leading run of l" test on char lists (used by the
in-memory backend model of S3 prefix-filtered listing). -/
def listStarts : List Char → List Char → Bool
  | [], _ => true
  | _ :: _, [] => false
  | a :: as, b :: bs => a == b && listStarts as bs

theorem listStarts_of_append (p : List Char) :
    ∀ (l r : List Char), l = p ++ r → listStarts p l = true := by
  induction p with
  | nil => intro l r _; rfl
  | cons a as ih =>
    intro l r h
    subst h
    simp only [List.cons_append, listStarts, List.append_eq]
    rw [ih (as ++ r) r rfl]
    simp

/-! Model of Go `path/filepath` lexical cleaning (Unix), restricted to
relative paths — the only form the client builds.  `splitSeg` splits a char
list at every `/` (Go `Clean` treats consecutive separators as delimiting
empty elements, which it drops); `cleanStep` is one step of Clean's
element loop for a non-rooted path: empty and `.` elements are dropped,
`..` pops the previous element unless the stack is empty or already ends
in `..` (in which case the `..` is kept, as Clean does for relative
paths); `joinSegs` reassembles, and an empty result becomes `.`. -/

def splitSegCore : List Char → List Char × List (List Char)
  | [] => ([], [])
  | c :: cs =>
    let r := splitSegCore cs
    if c = '/' then ([], r.1 :: r.2) else (c :: r.1, r.2)

def splitSeg (l : List Char) : List (List Char) :=
  (splitSegCore l).1 :: (splitSegCore l).2

def joinSegs : List (List Char) → List Char
  | [] => []
  | [s] => s
  | s :: ss => s ++ '/' :: joinSegs ss

def cleanStep (acc : List (List Char)) (seg : List Char) : List (List Char) :=
  if seg = [] ∨ seg = ['.'] then acc
  else if seg = ['.', '.'] then
    match acc with
    | [] => [seg]
    | t :: rest => if t = ['.', '.'] then seg :: t :: rest else rest
  else seg :: acc

def cleanChars (l : List Char) : List Char :=
  if (((splitSeg l).foldl cleanStep []).reverse).isEmpty then ['.']
  else joinSegs (((splitSeg l).foldl cleanStep []).reverse)

/-- Model of `filepath.Clean` on relative (non-rooted) Unix paths. -/
def clean (s : String) : String := String.mk (cleanChars s.data)

/-- Model of `strings.Join(elems, "/")`, as used by `filepath.Join`. -/
def sepJoin : List String → String
  | [] => ""
  | [a] => a
  | a :: rest => a ++ "/" ++ sepJoin rest

/-- Model of `filepath.Join` (Unix): skip leading empty elements, join the
remainder with `/`, and Clean the result. -/
def goJoin : List String → String
  | [] => ""
  | e :: rest => if e = "" then goJoin rest else clean (sepJoin (e :: rest))

/-! Data model of `storage.go`. -/

/-- Go `type Environment string` with the three declared constants
`Development = "dev"`, `Staging = "stage"`, `Production = "prod"`. -/
inductive Environment
  | development
  | staging
  | production
deriving DecidableEq

/-- The string value of each `Environment` constant. -/
def envString : Environment → String
  | .development => "dev"
  | .staging => "stage"
  | .production => "prod"

/-- Go struct `S3Config`. -/
structure S3Config where
  accessKeyID : String
  secretAccessKey : String
  bucketName : String
  region : String
  endpoint : String
deriving DecidableEq

/-- Go struct `StorageClient` (the `*s3.Client` handle is replaced by the
explicit `Backend` argument every operation receives). -/
structure StorageClient where
  bucketName : String
  environment : Environment
  devUser : String
deriving DecidableEq

/-- Payload bytes (`[]byte`), abstract. -/
abbrev Bytes := List Nat

/-- Go struct `FileInfo` (`LastModified time.Time` becomes `Int`). -/
structure FileInfo where
  key : String
  size : Int
  lastModified : Int
deriving DecidableEq

/-- One entry of an S3 `ListObjectsV2` response (`types.Object`, with its
`Key`, `Size` and `LastModified` fields dereferenced). -/
structure S3Object where
  key : String
  size : Int
  lastModified : Int
deriving DecidableEq

/-- The S3-compatible backend, as the external collaborator: each field is
one SDK call, taking bucket name and key (and payload / content type where
applicable) and returning success or an opaque error. -/
structure Backend where
  putObject : String → String → Bytes → String → Except String Unit
  getObject : String → String → Except String Bytes
  listObjectsV2 : String → String → Except String (List S3Object)
  deleteObject : String → String → Except String Unit
  headBucket : String → Except String Unit

/-- `(s *StorageClient) buildPath(path string) string` of `storage.go`:
switch on the environment; in development with a non-empty dev user the
key is `filepath.Join(env, "dev-"+devUser, path)`, otherwise
`filepath.Join(env, path)`. -/
def StorageClient.buildPath (s : StorageClient) (path : String) : String :=
  match s.environment with
  | .development =>
    if s.devUser ≠ "" then
      goJoin [envString s.environment, "dev-" ++ s.devUser, path]
    else
      goJoin [envString s.environment, path]
  | _ => goJoin [envString s.environment, path]

/-- The key `s.buildPath("csv/" + path)` computed by `UploadCSV`,
`DownloadCSV` and `ListCSVFiles`. -/
def csvKey (c : StorageClient) (path : String) : String :=
  c.buildPath ("csv/" ++ path)

/-- The key `s.buildPath("images/" + path)` computed by `UploadImage`. -/
def imagesKey (c : StorageClient) (path : String) : String :=
  c.buildPath ("images/" ++ path)

/-- `UploadCSV`: PutObject of the whole payload under the csv key with
content type `text/csv`; the backend error is returned as-is. -/
def UploadCSV (b : Backend) (c : StorageClient) (path : String) (data : Bytes) :
    Except String Unit :=
  b.putObject c.bucketName (csvKey c path) data "text/csv"

/-- `DownloadCSV`: GetObject of the csv key, whole body. -/
def DownloadCSV (b : Backend) (c : StorageClient) (path : String) :
    Except String Bytes :=
  b.getObject c.bucketName (csvKey c path)

/-- `UploadImage`: PutObject under the images key with the caller-supplied
content type. -/
def UploadImage (b : Backend) (c : StorageClient) (path : String) (data : Bytes)
    (contentType : String) : Except String Unit :=
  b.putObject c.bucketName (imagesKey c path) data contentType

/-- `ListCSVFiles`: ListObjectsV2 under the csv key of the given path, the
response objects copied field-by-field into `FileInfo` records; a backend
error is returned unchanged. -/
def ListCSVFiles (b : Backend) (c : StorageClient) (pre : String) :
    Except String (List FileInfo) :=
  match b.listObjectsV2 c.bucketName (csvKey c pre) with
  | .error e => .error e
  | .ok objs => .ok (objs.map fun o => FileInfo.mk o.key o.size o.lastModified)

/-- `UploadScrapedData`: builds `fmt.Sprintf("scraped/%s/%s", store, filename)`
and delegates to `UploadCSV`. -/
def UploadScrapedData (b : Backend) (c : StorageClient) (store filename : String)
    (data : Bytes) : Except String Unit :=
  UploadCSV b c ("scraped/" ++ store ++ "/" ++ filename) data

/-- The Go zero value `var latest FileInfo` (empty key, zero size, zero
time). -/
def zeroFileInfo : FileInfo := ⟨"", 0, 0⟩

/-- One iteration of the latest-file scan:
`if file.LastModified.After(latest.LastModified) { latest = file }`. -/
def latestUpd (latest file : FileInfo) : FileInfo :=
  if latest.lastModified < file.lastModified then file else latest

/-- The linear scan of `GetLatestScrapedFile`, starting from the zero
`FileInfo`. -/
def latestOf (files : List FileInfo) : FileInfo :=
  files.foldl latestUpd zeroFileInfo

/-- `GetLatestScrapedFile`: list `scraped/<store>/` via `ListCSVFiles`,
propagate a listing error, fail with `no files found` on an empty listing,
otherwise GetObject the key selected by the linear scan. -/
def GetLatestScrapedFile (b : Backend) (c : StorageClient) (store : String) :
    Except String Bytes :=
  match ListCSVFiles b c ("scraped/" ++ store ++ "/") with
  | .error e => .error e
  | .ok files =>
    if files.isEmpty then .error "no files found"
    else b.getObject c.bucketName (latestOf files).key

/-- `TestConnection`: HeadBucket against the configured bucket. -/
def TestConnection (b : Backend) (c : StorageClient) : Except String Unit :=
  b.headBucket c.bucketName

/-- Modelled from the spec: `RemoveFile` is listed in the spec's operation
table but is absent from `storage.go`; per the table it takes a logical
path, builds the key (this variant hard-codes the `csv/` category, like the
other csv operations), issues the backend delete, returns nothing on
success and propagates any backend error verbatim. -/
def RemoveFile (b : Backend) (c : StorageClient) (path : String) :
    Except String Unit :=
  b.deleteObject c.bucketName (csvKey c path)

/-- Spec-side restatement of `UploadScrapedData` (spec §4.2: "composes a
logical path of the form `scraped/<store>/<filename>` then delegates to
UploadCSV"), to be compared with the source definition. -/
def UploadScrapedDataSpec (b : Backend) (c : StorageClient)
    (store filename : String) (data : Bytes) : Except String Unit :=
  UploadCSV b c ("scraped/" ++ store ++ "/" ++ filename) data

/-- Go `os.Getenv`: the process environment is a partial map from names to
values; an unset variable reads as `""`. -/
def osGetenv (env : String → Option String) (name : String) : String :=
  (env name).getD ""

/-- `getEnvOrDefault` of `storage.go`. -/
def getEnvOrDefault (env : String → Option String) (key defaultValue : String) :
    String :=
  let value := osGetenv env key
  if value ≠ "" then value else defaultValue

/-- `LoadS3ConfigFromEnv` of `storage.go`. -/
def LoadS3ConfigFromEnv (env : String → Option String) : S3Config :=
  { accessKeyID := osGetenv env "S3_ACCESS_KEY_ID"
    secretAccessKey := osGetenv env "S3_SECRET_ACCESS_KEY"
    bucketName := getEnvOrDefault env "S3_BUCKET_NAME" "default"
    region := getEnvOrDefault env "S3_REGION" "auto"
    endpoint := osGetenv env "S3_ENDPOINT" }

/-- One stored object of the in-memory backend used to exercise the client:
key, content, last-modified timestamp. -/
structure StoredObject where
  key : String
  content : Bytes
  lastModified : Int
deriving DecidableEq

/-- An in-memory S3 backend over a fixed list of objects: GetObject returns
the content of the first object with the requested key (or a `NoSuchKey`
error), ListObjectsV2 returns, in list order, every object whose key starts
with the requested prefix string. -/
def mkBackend (objects : List StoredObject) : Backend where
  putObject := fun _ _ _ _ => .ok ()
  getObject := fun _ key =>
    match objects.find? (fun o => o.key == key) with
    | some o => .ok o.content
    | none => .error "NoSuchKey"
  listObjectsV2 := fun _ p =>
    .ok ((objects.filter (fun o => listStarts p.data o.key.data)).map
      fun o => S3Object.mk o.key (Int.ofNat o.content.length) o.lastModified)
  deleteObject := fun _ _ => .ok ()
  headBucket := fun _ => .ok ()

/-! Path-shape predicates.  `plainSegL s`: `s` is a path element that
`Clean` passes through unchanged (non-empty, not `.`, not `..`).
`plainStr a`: the string `a` is one plain element (additionally
slash-free).  `CleanRel p`: every element of `p` is plain, i.e. `p` is a
non-empty relative path with no leading, trailing or doubled separator and
no `.` or `..` element.  `NoDotDot p`: no element of `p` is `..`. -/

def plainSegL (s : List Char) : Prop :=
  s ≠ [] ∧ s ≠ ['.'] ∧ s ≠ ['.', '.']

instance (s : List Char) : Decidable (plainSegL s) := by
  unfold plainSegL
  infer_instance

def plainStr (a : String) : Prop := plainSegL a.data ∧ '/' ∉ a.data

instance (a : String) : Decidable (plainStr a) := by
  unfold plainStr
  infer_instance

def CleanRel (p : String) : Prop := ∀ s ∈ splitSeg p.data, plainSegL s

instance (p : String) : Decidable (CleanRel p) := by
  unfold CleanRel
  infer_instance

def NoDotDot (p : String) : Prop := ∀ s ∈ splitSeg p.data, s ≠ ['.', '.']

instance (p : String) : Decidable (NoDotDot p) := by
  unfold NoDotDot
  infer_instance

/-! Lemmas about segmentation and `Clean`. -/

theorem splitSegCore_append_slash (a b : List Char) :
    splitSegCore (a ++ '/' :: b) =
      ((splitSegCore a).1, (splitSegCore a).2 ++ splitSeg b) := by
  induction a with
  | nil => simp [splitSegCore, splitSeg]
  | cons c cs ih =>
    by_cases hc : c = '/'
    · simp [splitSegCore, hc, ih, splitSeg]
    · simp [splitSegCore, hc, ih]

theorem splitSeg_append_slash (a b : List Char) :
    splitSeg (a ++ '/' :: b) = splitSeg a ++ splitSeg b := by
  simp [splitSeg, splitSegCore_append_slash]

theorem splitSegCore_no_slash (a : List Char) (h : '/' ∉ a) :
    splitSegCore a = (a, []) := by
  induction a with
  | nil => rfl
  | cons c cs ih =>
    have hc : ¬ c = '/' := by
      intro hc
      exact h (by simp [hc])
    have hcs : '/' ∉ cs := by
      intro hm
      exact h (by simp [hm])
    simp [splitSegCore, hc, ih hcs]

theorem splitSeg_no_slash (a : List Char) (h : '/' ∉ a) :
    splitSeg a = [a] := by
  simp [splitSeg, splitSegCore_no_slash a h]

theorem joinSegs_splitSeg (l : List Char) : joinSegs (splitSeg l) = l := by
  induction l with
  | nil => rfl
  | cons c cs ih =>
    by_cases hc : c = '/'
    · subst hc
      have h1 : splitSeg ('/' :: cs) = [] :: splitSeg cs := by
        simp [splitSeg, splitSegCore]
      rw [h1]
      have h2 : joinSegs ([] :: splitSeg cs) = [] ++ '/' :: joinSegs (splitSeg cs) := by
        simp [splitSeg, joinSegs]
      rw [h2, ih]
      simp
    · cases h2 : (splitSegCore cs).2 with
      | nil =>
        have h1 : splitSeg (c :: cs) = [c :: (splitSegCore cs).1] := by
          simp [splitSeg, splitSegCore, hc, h2]
        rw [h1]
        have ih2 : (splitSegCore cs).1 = cs := by
          have := ih
          simp [splitSeg, h2, joinSegs] at this
          exact this
        simp [joinSegs, ih2]
      | cons d ds =>
        have h1 : splitSeg (c :: cs) = (c :: (splitSegCore cs).1) :: d :: ds := by
          simp [splitSeg, splitSegCore, hc, h2]
        rw [h1]
        have ih2 : (splitSegCore cs).1 ++ '/' :: joinSegs (d :: ds) = cs := by
          have := ih
          simp [splitSeg, h2, joinSegs] at this
          exact this
        simp [joinSegs, ih2]

/-- A step of Clean's loop on a kept (plain) element pushes it. -/
theorem cleanStep_plain (acc : List (List Char)) (s : List Char)
    (hs : plainSegL s) : cleanStep acc s = s :: acc := by
  unfold cleanStep
  rw [if_neg, if_neg hs.2.2]
  rintro (h1 | h1)
  · exact hs.1 h1
  · exact hs.2.1 h1

theorem foldl_cleanStep_plain (segs : List (List Char)) :
    ∀ acc, (∀ s ∈ segs, plainSegL s) →
      segs.foldl cleanStep acc = segs.reverse ++ acc := by
  induction segs with
  | nil =>
    intro acc _
    simp
  | cons s ss ih =>
    intro acc h
    rw [List.foldl_cons, cleanStep_plain acc s (h s (by simp)),
      ih (s :: acc) (fun t ht => h t (by simp [ht]))]
    simp

/-- A kept element: neither empty nor `.` (Boolean form for `filter`). -/
def keepSeg (s : List Char) : Bool := !(s == [] || s == ['.'])

theorem foldl_cleanStep_noDotDot (segs : List (List Char)) :
    ∀ acc, (∀ s ∈ segs, s ≠ ['.', '.']) →
      segs.foldl cleanStep acc = (segs.filter keepSeg).reverse ++ acc := by
  induction segs with
  | nil =>
    intro acc _
    simp
  | cons s ss ih =>
    intro acc h
    by_cases hs : s = [] ∨ s = ['.']
    · have hstep : cleanStep acc s = acc := by
        unfold cleanStep
        rw [if_pos hs]
      have hk : keepSeg s = false := by
        rcases hs with h1 | h1 <;> simp [keepSeg, h1]
      rw [List.foldl_cons, hstep, List.filter_cons, if_neg (by simp [hk]),
        ih acc (fun t ht => h t (by simp [ht]))]
    · have hstep : cleanStep acc s = s :: acc := by
        unfold cleanStep
        rw [if_neg hs, if_neg (h s (by simp))]
      have hk : keepSeg s = true := by
        push_neg at hs
        simp [keepSeg, hs.1, hs.2]
      rw [List.foldl_cons, hstep, List.filter_cons, if_pos (by simp [hk]),
        ih (s :: acc) (fun t ht => h t (by simp [ht]))]
      simp

theorem cleanChars_of_plain (l : List Char)
    (h : ∀ s ∈ splitSeg l, plainSegL s) : cleanChars l = l := by
  unfold cleanChars
  rw [foldl_cleanStep_plain (splitSeg l) [] h]
  rw [List.append_nil, List.reverse_reverse, if_neg, joinSegs_splitSeg]
  simp [splitSeg]

theorem clean_of_cleanRel (p : String) (h : CleanRel p) : clean p = p := by
  apply strExt
  show (String.mk (cleanChars p.data)).data = p.data
  rw [data_mk, cleanChars_of_plain p.data h]

theorem cleanChars_trailing (l : List Char) :
    cleanChars (l ++ ['/']) = cleanChars l := by
  unfold cleanChars
  rw [show (['/'] : List Char) = '/' :: [] from rfl, splitSeg_append_slash,
    List.foldl_append]
  simp [splitSeg, splitSegCore, cleanStep]

theorem clean_trailing (s : String) : clean (s ++ "/") = clean s := by
  apply strExt
  show cleanChars ((s ++ "/").data) = cleanChars s.data
  rw [data_append, show ("/" : String).data = ['/'] from rfl, cleanChars_trailing]

/-- Segmentation of `a ++ "/" ++ P` for slash-free `a`. -/
theorem splitSeg_str_append (a P : String) (ha : '/' ∉ a.data) :
    splitSeg ((a ++ "/" ++ P).data) = a.data :: splitSeg P.data := by
  rw [data_append, data_append, show ("/" : String).data = ['/'] from rfl,
    List.append_assoc, show (['/'] : List Char) ++ P.data = '/' :: P.data from rfl,
    splitSeg_append_slash, splitSeg_no_slash a.data ha]
  rfl

theorem cleanRel_append (a P : String) (ha : plainStr a) (hP : CleanRel P) :
    CleanRel (a ++ "/" ++ P) := by
  intro s hs
  rw [splitSeg_str_append a P ha.2] at hs
  rcases hs with _ | hs
  · exact ha.1
  · exact hP s (by assumption)

theorem noDotDot_append (a P : String) (ha : plainStr a) (hP : NoDotDot P) :
    NoDotDot (a ++ "/" ++ P) := by
  intro s hs
  rw [splitSeg_str_append a P ha.2] at hs
  rcases hs with _ | hs
  · exact ha.1.2.2
  · exact hP s (by assumption)

/-- The environment scope every key is namespaced under: the environment
tag plus, in development with a non-empty dev user, the `dev-<user>`
sub-segment (both with their trailing separator). -/
def envScope (c : StorageClient) : String :=
  match c.environment with
  | .development =>
    if c.devUser ≠ "" then "dev/dev-" ++ c.devUser ++ "/" else "dev/"
  | .staging => "stage/"
  | .production => "prod/"

theorem plainStr_devSeg (u : String) (hu : '/' ∉ u.data) :
    plainStr ("dev-" ++ u) := by
  have hdata : ("dev-" ++ u).data = 'd' :: 'e' :: 'v' :: '-' :: u.data := by
    rw [data_append]
    rfl
  refine ⟨⟨?_, ?_, ?_⟩, ?_⟩
  · rw [hdata]
    simp
  · rw [hdata]
    intro h
    injection h with h1 _
    exact absurd h1 (by decide)
  · rw [hdata]
    intro h
    injection h with h1 _
    exact absurd h1 (by decide)
  · rw [hdata]
    intro h
    simp only [List.mem_cons] at h
    rcases h with h | h | h | h | h
    · exact absurd h (by decide)
    · exact absurd h (by decide)
    · exact absurd h (by decide)
    · exact absurd h (by decide)
    · exact hu h

/-- Master shape lemma: on a clean relative path the key builder returns
exactly the environment scope followed by the path (the dev user may not
contain a separator; the client never splits it). -/
theorem buildPath_cleanRel (c : StorageClient) (P : String)
    (hu : c.environment = .development → '/' ∉ c.devUser.data) (hP : CleanRel P) :
    c.buildPath P = envScope c ++ P := by
  obtain ⟨bn, env, du⟩ := c
  cases env with
  | development =>
    have hred : StorageClient.buildPath ⟨bn, .development, du⟩ P =
        if du ≠ "" then goJoin [envString .development, "dev-" ++ du, P]
        else goJoin [envString .development, P] := rfl
    have hscope : envScope ⟨bn, .development, du⟩ =
        if du ≠ "" then "dev/dev-" ++ du ++ "/" else "dev/" := rfl
    rw [hred, hscope]
    by_cases hd : du = ""
    · subst hd
      rw [if_neg (by simp), if_neg (by simp)]
      have h1 : goJoin [envString .development, P] =
          clean ("dev" ++ "/" ++ P) := by
        rw [goJoin, if_neg (by decide)]
        rfl
      rw [h1, clean_of_cleanRel _ (cleanRel_append "dev" P (by decide) hP)]
      apply strExt
      simp only [data_append, List.append_assoc]
      rfl
    · rw [if_pos hd, if_pos hd]
      have h1 : goJoin [envString .development, "dev-" ++ du, P] =
          clean ("dev" ++ "/" ++ (("dev-" ++ du) ++ "/" ++ P)) := by
        rw [goJoin, if_neg (by decide)]
        rfl
      rw [h1, clean_of_cleanRel _
        (cleanRel_append "dev" _ (by decide)
          (cleanRel_append ("dev-" ++ du) P (plainStr_devSeg du (hu rfl)) hP))]
      apply strExt
      simp only [data_append, List.append_assoc]
      rfl
  | staging =>
    show goJoin [envString .staging, P] = "stage/" ++ P
    have h1 : goJoin [envString .staging, P] = clean ("stage" ++ "/" ++ P) := by
      rw [goJoin, if_neg (by decide)]
      rfl
    rw [h1, clean_of_cleanRel _ (cleanRel_append "stage" P (by decide) hP)]
    apply strExt
    simp only [data_append, List.append_assoc]
    rfl
  | production =>
    show goJoin [envString .production, P] = "prod/" ++ P
    have h1 : goJoin [envString .production, P] = clean ("prod" ++ "/" ++ P) := by
      rw [goJoin, if_neg (by decide)]
      rfl
    rw [h1, clean_of_cleanRel _ (cleanRel_append "prod" P (by decide) hP)]
    apply strExt
    simp only [data_append, List.append_assoc]
    rfl

theorem joinSegs_cons_cons (s t : List Char) (ts : List (List Char)) :
    joinSegs (s :: t :: ts) = s ++ '/' :: joinSegs (t :: ts) := rfl

/-- Cleaning `t/cat/P` for plain `t`, `cat` and `..`-free `P` keeps the
two leading elements; the path part collapses to its kept elements. -/
theorem clean_scope_two (t cat P : String) (ht : plainStr t)
    (hcat : plainStr cat) (hP : NoDotDot P) :
    clean (t ++ "/" ++ (cat ++ "/" ++ P)) =
      t ++ "/" ++ String.mk (joinSegs (cat.data :: (splitSeg P.data).filter keepSeg)) := by
  have hsplit : splitSeg ((t ++ "/" ++ (cat ++ "/" ++ P)).data) =
      t.data :: cat.data :: splitSeg P.data := by
    rw [splitSeg_str_append t _ ht.2, splitSeg_str_append cat P hcat.2]
  apply strExt
  show cleanChars ((t ++ "/" ++ (cat ++ "/" ++ P)).data) = _
  unfold cleanChars
  rw [hsplit, List.foldl_cons, cleanStep_plain _ _ ht.1, List.foldl_cons,
    cleanStep_plain _ _ hcat.1, foldl_cleanStep_noDotDot _ _ hP,
    List.reverse_append, List.reverse_reverse]
  rw [if_neg (by simp)]
  rw [show ([cat.data, t.data] : List (List Char)).reverse = [t.data, cat.data] from rfl]
  rw [show ([t.data, cat.data] : List (List Char)) ++
      (splitSeg P.data).filter keepSeg =
      t.data :: cat.data :: (splitSeg P.data).filter keepSeg from rfl]
  rw [joinSegs_cons_cons]
  simp only [data_append, data_mk, List.append_assoc]
  rfl

/-- Cleaning `t/d/cat/P` for plain `t`, `d`, `cat` and `..`-free `P`. -/
theorem clean_scope_three (t d cat P : String) (ht : plainStr t)
    (hd : plainStr d) (hcat : plainStr cat) (hP : NoDotDot P) :
    clean (t ++ "/" ++ (d ++ "/" ++ (cat ++ "/" ++ P))) =
      t ++ "/" ++ (d ++ "/" ++
        String.mk (joinSegs (cat.data :: (splitSeg P.data).filter keepSeg))) := by
  have hsplit : splitSeg ((t ++ "/" ++ (d ++ "/" ++ (cat ++ "/" ++ P))).data) =
      t.data :: d.data :: cat.data :: splitSeg P.data := by
    rw [splitSeg_str_append t _ ht.2, splitSeg_str_append d _ hd.2,
      splitSeg_str_append cat P hcat.2]
  apply strExt
  show cleanChars ((t ++ "/" ++ (d ++ "/" ++ (cat ++ "/" ++ P))).data) = _
  unfold cleanChars
  rw [hsplit, List.foldl_cons, cleanStep_plain _ _ ht.1, List.foldl_cons,
    cleanStep_plain _ _ hd.1, List.foldl_cons, cleanStep_plain _ _ hcat.1,
    foldl_cleanStep_noDotDot _ _ hP, List.reverse_append, List.reverse_reverse]
  rw [if_neg (by simp)]
  rw [show ([cat.data, d.data, t.data] : List (List Char)).reverse =
      [t.data, d.data, cat.data] from rfl]
  rw [show ([t.data, d.data, cat.data] : List (List Char)) ++
      (splitSeg P.data).filter keepSeg =
      t.data :: d.data :: cat.data :: (splitSeg P.data).filter keepSeg from rfl]
  rw [joinSegs_cons_cons, joinSegs_cons_cons]
  simp only [data_append, data_mk, List.append_assoc]
  rfl

/-- The environment-scope invariant for keys built under a category: on any
`..`-free path, the built key extends the environment scope. -/
theorem buildPath_cat_scope (c : StorageClient) (cat P : String)
    (hu : c.environment = .development → '/' ∉ c.devUser.data)
    (hcat : plainStr cat) (hP : NoDotDot P) :
    ∃ r : String, c.buildPath (cat ++ "/" ++ P) = envScope c ++ r := by
  obtain ⟨bn, env, du⟩ := c
  cases env with
  | development =>
    have hred : StorageClient.buildPath ⟨bn, .development, du⟩ (cat ++ "/" ++ P) =
        if du ≠ "" then goJoin [envString .development, "dev-" ++ du, cat ++ "/" ++ P]
        else goJoin [envString .development, cat ++ "/" ++ P] := rfl
    have hscope : envScope ⟨bn, .development, du⟩ =
        if du ≠ "" then "dev/dev-" ++ du ++ "/" else "dev/" := rfl
    rw [hred, hscope]
    by_cases hdu : du = ""
    · subst hdu
      rw [if_neg (by simp), if_neg (by simp)]
      refine ⟨String.mk (joinSegs (cat.data :: (splitSeg P.data).filter keepSeg)), ?_⟩
      have h1 : goJoin [envString .development, cat ++ "/" ++ P] =
          clean ("dev" ++ "/" ++ (cat ++ "/" ++ P)) := by
        rw [goJoin, if_neg (by decide)]
        rfl
      rw [h1, clean_scope_two "dev" cat P (by decide) hcat hP]
      apply strExt
      simp only [data_append, List.append_assoc]
      rfl
    · rw [if_pos hdu, if_pos hdu]
      refine ⟨String.mk (joinSegs (cat.data :: (splitSeg P.data).filter keepSeg)), ?_⟩
      have h1 : goJoin [envString .development, "dev-" ++ du, cat ++ "/" ++ P] =
          clean ("dev" ++ "/" ++ (("dev-" ++ du) ++ "/" ++ (cat ++ "/" ++ P))) := by
        rw [goJoin, if_neg (by decide)]
        rfl
      rw [h1, clean_scope_three "dev" ("dev-" ++ du) cat P (by decide)
        (plainStr_devSeg du (hu rfl)) hcat hP]
      apply strExt
      simp only [data_append, List.append_assoc]
      rfl
  | staging =>
    refine ⟨String.mk (joinSegs (cat.data :: (splitSeg P.data).filter keepSeg)), ?_⟩
    have h1 : StorageClient.buildPath ⟨bn, .staging, du⟩ (cat ++ "/" ++ P) =
        clean ("stage" ++ "/" ++ (cat ++ "/" ++ P)) := by
      show goJoin [envString .staging, cat ++ "/" ++ P] = _
      rw [goJoin, if_neg (by decide)]
      rfl
    rw [h1, clean_scope_two "stage" cat P (by decide) hcat hP]
    apply strExt
    simp only [data_append, List.append_assoc]
    rfl
  | production =>
    refine ⟨String.mk (joinSegs (cat.data :: (splitSeg P.data).filter keepSeg)), ?_⟩
    have h1 : StorageClient.buildPath ⟨bn, .production, du⟩ (cat ++ "/" ++ P) =
        clean ("prod" ++ "/" ++ (cat ++ "/" ++ P)) := by
      show goJoin [envString .production, cat ++ "/" ++ P] = _
      rw [goJoin, if_neg (by decide)]
      rfl
    rw [h1, clean_scope_two "prod" cat P (by decide) hcat hP]
    apply strExt
    simp only [data_append, List.append_assoc]
    rfl

theorem cat_split_csv (P : String) : ("csv/" : String) ++ P = "csv" ++ "/" ++ P := by
  apply strExt
  simp only [data_append, List.append_assoc]
  rfl

theorem cat_split_images (P : String) :
    ("images/" : String) ++ P = "images" ++ "/" ++ P := by
  apply strExt
  simp only [data_append, List.append_assoc]
  rfl

/-- The csv key on a `..`-free path extends the environment scope. -/
theorem csvKey_scope (c : StorageClient) (P : String)
    (hu : c.environment = .development → '/' ∉ c.devUser.data) (hP : NoDotDot P) :
    ∃ r : String, csvKey c P = envScope c ++ r := by
  unfold csvKey
  rw [cat_split_csv]
  exact buildPath_cat_scope c "csv" P hu (by decide) hP

/-- The images key on a `..`-free path extends the environment scope. -/
theorem imagesKey_scope (c : StorageClient) (P : String)
    (hu : c.environment = .development → '/' ∉ c.devUser.data) (hP : NoDotDot P) :
    ∃ r : String, imagesKey c P = envScope c ++ r := by
  unfold imagesKey
  rw [cat_split_images]
  exact buildPath_cat_scope c "images" P hu (by decide) hP

/-- The csv key of a clean path, exactly. -/
theorem csvKey_cleanRel (c : StorageClient) (P : String)
    (hu : c.environment = .development → '/' ∉ c.devUser.data) (hP : CleanRel P) :
    csvKey c P = envScope c ++ "csv/" ++ P := by
  unfold csvKey
  rw [cat_split_csv,
    buildPath_cleanRel c ("csv" ++ "/" ++ P) hu (cleanRel_append "csv" P (by decide) hP)]
  apply strExt
  simp only [data_append, List.append_assoc]
  rfl

/-- The images key of a clean path, exactly. -/
theorem imagesKey_cleanRel (c : StorageClient) (P : String)
    (hu : c.environment = .development → '/' ∉ c.devUser.data) (hP : CleanRel P) :
    imagesKey c P = envScope c ++ "images/" ++ P := by
  unfold imagesKey
  rw [cat_split_images,
    buildPath_cleanRel c ("images" ++ "/" ++ P) hu
      (cleanRel_append "images" P (by decide) hP)]
  apply strExt
  simp only [data_append, List.append_assoc]
  rfl

/-! Lemmas about the latest-file linear scan. -/

theorem foldl_latest_const (fs : List FileInfo) :
    ∀ acc, (∀ f ∈ fs, f.lastModified ≤ acc.lastModified) →
      fs.foldl latestUpd acc = acc := by
  induction fs with
  | nil =>
    intro acc _
    rfl
  | cons f fs ih =>
    intro acc h
    rw [List.foldl_cons, show latestUpd acc f = acc from
      if_neg (not_lt.mpr (h f (by simp)))]
    exact ih acc (fun g hg => h g (by simp [hg]))

theorem foldl_latest_max (fs : List FileInfo) :
    ∀ acc m, m ∈ fs → (∀ f ∈ fs, f = m ∨ f.lastModified < m.lastModified) →
      acc.lastModified < m.lastModified → fs.foldl latestUpd acc = m := by
  induction fs with
  | nil =>
    intro acc m hm _ _
    exact absurd hm (by simp)
  | cons f fs ih =>
    intro acc m hm hall hacc
    rcases hall f (by simp) with hf | hf
    · subst hf
      rw [List.foldl_cons, show latestUpd acc f = f from if_pos hacc]
      refine foldl_latest_const fs f (fun g hg => ?_)
      rcases hall g (by simp [hg]) with h1 | h1
      · rw [h1]
      · exact le_of_lt h1
    · have hm2 : m ∈ fs := by
        rcases List.mem_cons.mp hm with h1 | h1
        · exact absurd hf (by rw [h1]; exact lt_irrefl _)
        · exact h1
      rw [List.foldl_cons]
      refine ih (latestUpd acc f) m hm2 (fun g hg => hall g (by simp [hg])) ?_
      unfold latestUpd
      by_cases hc : acc.lastModified < f.lastModified
      · rw [if_pos hc]
        exact hf
      · rw [if_neg hc]
        exact hacc

theorem foldl_latest_mem_or (fs : List FileInfo) :
    ∀ acc, fs.foldl latestUpd acc ∈ fs ∨ fs.foldl latestUpd acc = acc := by
  induction fs with
  | nil =>
    intro acc
    exact Or.inr rfl
  | cons f fs ih =>
    intro acc
    rw [List.foldl_cons]
    rcases ih (latestUpd acc f) with h | h
    · exact Or.inl (by simp [h])
    · rw [h]
      unfold latestUpd
      by_cases hc : acc.lastModified < f.lastModified
      · rw [if_pos hc]
        exact Or.inl (by simp)
      · rw [if_neg hc]
        exact Or.inr rfl

theorem foldl_latest_acc_le (fs : List FileInfo) :
    ∀ acc, acc.lastModified ≤ (fs.foldl latestUpd acc).lastModified := by
  induction fs with
  | nil =>
    intro acc
    exact le_refl _
  | cons f fs ih =>
    intro acc
    rw [List.foldl_cons]
    refine le_trans ?_ (ih (latestUpd acc f))
    unfold latestUpd
    by_cases hc : acc.lastModified < f.lastModified
    · rw [if_pos hc]
      exact le_of_lt hc
    · rw [if_neg hc]

theorem foldl_latest_elem_le (fs : List FileInfo) :
    ∀ acc f, f ∈ fs → f.lastModified ≤ (fs.foldl latestUpd acc).lastModified := by
  induction fs with
  | nil =>
    intro acc f hf
    exact absurd hf (by simp)
  | cons g fs ih =>
    intro acc f hf
    rw [List.foldl_cons]
    rcases List.mem_cons.mp hf with h1 | h1
    · subst h1
      refine le_trans ?_ (foldl_latest_acc_le fs (latestUpd acc f))
      unfold latestUpd
      by_cases hc : acc.lastModified < f.lastModified
      · rw [if_pos hc]
      · rw [if_neg hc]
        exact le_of_not_lt hc
    · exact ih (latestUpd acc g) f h1

/-- With a unique maximal timestamp strictly after the zero time, the scan
returns the maximal file. -/
theorem latestOf_max (fs : List FileInfo) (m : FileInfo) (hm : m ∈ fs)
    (hall : ∀ f ∈ fs, f = m ∨ f.lastModified < m.lastModified)
    (hpos : 0 < m.lastModified) : latestOf fs = m :=
  foldl_latest_max fs zeroFileInfo m hm hall hpos

/-- If some listed file is strictly after the zero time, the scan returns a
listed file (the zero sentinel cannot survive). -/
theorem latestOf_mem (fs : List FileInfo) (f : FileInfo) (hf : f ∈ fs)
    (hpos : 0 < f.lastModified) : latestOf fs ∈ fs := by
  rcases foldl_latest_mem_or fs zeroFileInfo with h | h
  · exact h
  · exfalso
    have hle : f.lastModified ≤ (fs.foldl latestUpd zeroFileInfo).lastModified :=
      foldl_latest_elem_le fs zeroFileInfo f hf
    rw [h] at hle
    exact absurd (lt_of_lt_of_le hpos hle) (by simp [zeroFileInfo])

/-! Concrete fixtures used to exercise the client. -/

def exClientDev : StorageClient := ⟨"bucket", .development, ""⟩

def exClientAlice : StorageClient := ⟨"bucket", .development, "alice"⟩

def exClientProd : StorageClient := ⟨"bucket", .production, ""⟩

/-- A backend on which every call fails with the same opaque error. -/
def errBackend : Backend :=
  ⟨fun _ _ _ _ => .error "boom", fun _ _ => .error "boom",
   fun _ _ => .error "boom", fun _ _ => .error "boom", fun _ => .error "boom"⟩

/-! Claim theorems. -/

/-- C4: if the listing under `scraped/<store>/` fails, `GetLatestScrapedFile`
propagates that backend error unchanged; if it succeeds with zero files, the
result is the domain error `no files found`, and this result is independent
of the backend's GetObject (same answer on any backend with the same
listing function), i.e. no download is performed. -/
theorem claim4 (b : Backend) (c : StorageClient) (store : String) :
    (∀ e, b.listObjectsV2 c.bucketName (csvKey c ("scraped/" ++ store ++ "/")) = .error e →
      GetLatestScrapedFile b c store = .error e)
    ∧ (b.listObjectsV2 c.bucketName (csvKey c ("scraped/" ++ store ++ "/")) = .ok [] →
      GetLatestScrapedFile b c store = .error "no files found"
      ∧ ∀ b2 : Backend, b2.listObjectsV2 = b.listObjectsV2 →
          GetLatestScrapedFile b2 c store = .error "no files found") := by
  refine ⟨?_, ?_⟩
  · intro e he
    unfold GetLatestScrapedFile ListCSVFiles
    rw [he]
  · intro h0
    refine ⟨?_, ?_⟩
    · unfold GetLatestScrapedFile ListCSVFiles
      rw [h0]
      rfl
    · intro b2 hb2
      unfold GetLatestScrapedFile ListCSVFiles
      rw [hb2, h0]
      rfl

/-- C4 witness: a backend whose listing fails with `boom`, and the empty
in-memory backend. -/
theorem claim4_witness :
    GetLatestScrapedFile errBackend exClientProd "s" = .error "boom"
    ∧ GetLatestScrapedFile (mkBackend []) exClientProd "s" = .error "no files found" :=
  ⟨(claim4 errBackend exClientProd "s").1 "boom" rfl,
   ((claim4 (mkBackend []) exClientProd "s").2 rfl).1⟩

/-- C5: with environment `development` and an empty dev user, `buildPath`
takes exactly the `filepath.Join(env, path)` form used for staging and
production (the dev segment is omitted entirely), so for every clean
relative path the three keys differ only in the environment tag. -/
theorem claim5 (bn u P : String) :
    StorageClient.buildPath ⟨bn, .development, ""⟩ P = goJoin [envString .development, P]
    ∧ StorageClient.buildPath ⟨bn, .staging, u⟩ P = goJoin [envString .staging, P]
    ∧ StorageClient.buildPath ⟨bn, .production, u⟩ P = goJoin [envString .production, P]
    ∧ (CleanRel P →
        StorageClient.buildPath ⟨bn, .development, ""⟩ P = "dev/" ++ P
        ∧ StorageClient.buildPath ⟨bn, .staging, u⟩ P = "stage/" ++ P
        ∧ StorageClient.buildPath ⟨bn, .production, u⟩ P = "prod/" ++ P) := by
  refine ⟨rfl, rfl, rfl, fun hP => ⟨?_, ?_, ?_⟩⟩
  · exact buildPath_cleanRel ⟨bn, .development, ""⟩ P
      (fun _ => show '/' ∉ ("" : String).data by decide) hP
  · exact buildPath_cleanRel ⟨bn, .staging, u⟩ P
      (fun hdev => Environment.noConfusion hdev) hP
  · exact buildPath_cleanRel ⟨bn, .production, u⟩ P
      (fun hdev => Environment.noConfusion hdev) hP

/-- C5 witness at a concrete clean path. -/
theorem claim5_witness :
    StorageClient.buildPath ⟨"b", .development, ""⟩ "a.csv" = "dev/a.csv"
    ∧ StorageClient.buildPath ⟨"b", .staging, "x"⟩ "a.csv" = "stage/a.csv"
    ∧ StorageClient.buildPath ⟨"b", .production, "x"⟩ "a.csv" = "prod/a.csv" := by
  have h := (claim5 "b" "x" "a.csv").2.2.2 (by decide)
  exact ⟨h.1, h.2.1, h.2.2⟩

/-- C6: a successful listing with zero matches yields `ok []` (not an
error); a backend listing error is returned unchanged. -/
theorem claim6 (b : Backend) (c : StorageClient) (p : String) :
    (b.listObjectsV2 c.bucketName (csvKey c p) = .ok [] → ListCSVFiles b c p = .ok [])
    ∧ (∀ e, b.listObjectsV2 c.bucketName (csvKey c p) = .error e →
        ListCSVFiles b c p = .error e) := by
  refine ⟨?_, ?_⟩
  · intro h
    unfold ListCSVFiles
    rw [h]
    rfl
  · intro e h
    unfold ListCSVFiles
    rw [h]

/-- C6 witness: an in-memory backend holding only a production object,
queried by a development client (zero matches), and a failing backend. -/
theorem claim6_witness :
    ListCSVFiles (mkBackend [⟨"prod/csv/other.csv", [1], 1⟩]) exClientDev "y" = .ok []
    ∧ ListCSVFiles errBackend exClientDev "y" = .error "boom" :=
  ⟨(claim6 (mkBackend [⟨"prod/csv/other.csv", [1], 1⟩]) exClientDev "y").1 rfl,
   (claim6 errBackend exClientDev "y").2 "boom" rfl⟩

/-- C7: `UploadScrapedData store filename data` coincides with the spec's
description — `UploadCSV` at logical path `scraped/<store>/<filename>` —
and therefore issues the same PutObject: same csv key, same payload, same
`text/csv` content type, same result. -/
theorem claim7 (b : Backend) (c : StorageClient) (store filename : String)
    (data : Bytes) :
    UploadScrapedData b c store filename data = UploadScrapedDataSpec b c store filename data
    ∧ UploadScrapedData b c store filename data =
        UploadCSV b c ("scraped/" ++ store ++ "/" ++ filename) data
    ∧ UploadScrapedData b c store filename data =
        b.putObject c.bucketName (csvKey c ("scraped/" ++ store ++ "/" ++ filename))
          data "text/csv" :=
  ⟨rfl, rfl, rfl⟩

/-- C8 (RemoveFile is spec-modelled, absent from `storage.go`): it deletes
exactly the object under the csv key of the logical path, returns nothing
on success, and propagates any backend error verbatim. -/
theorem claim8 (b : Backend) (c : StorageClient) (path : String) :
    RemoveFile b c path = b.deleteObject c.bucketName (csvKey c path)
    ∧ (b.deleteObject c.bucketName (csvKey c path) = .ok () →
        RemoveFile b c path = .ok ())
    ∧ (∀ e, b.deleteObject c.bucketName (csvKey c path) = .error e →
        RemoveFile b c path = .error e) :=
  ⟨rfl, fun h => h, fun _ h => h⟩

/-- C8 witness: deletion succeeds on the in-memory backend and fails with
the backend's own error on the failing backend. -/
theorem claim8_witness :
    RemoveFile (mkBackend []) exClientProd "a.csv" = .ok ()
    ∧ RemoveFile errBackend exClientProd "a.csv" = .error "boom" :=
  ⟨(claim8 (mkBackend []) exClientProd "a.csv").2.1 rfl,
   (claim8 errBackend exClientProd "a.csv").2.2 "boom" rfl⟩

/-- C10: `LoadS3ConfigFromEnv` treats a variable set to the empty string
exactly like an unset one — bucket name defaults to `default` and region to
`auto` whenever the variable is unset or empty — and the whole result
depends only on the `os.Getenv` view of the environment (in particular the
loader is total: it never fails). -/
theorem claim10 (env : String → Option String) :
    ((env "S3_BUCKET_NAME" = none ∨ env "S3_BUCKET_NAME" = some "") →
      (LoadS3ConfigFromEnv env).bucketName = "default")
    ∧ ((env "S3_REGION" = none ∨ env "S3_REGION" = some "") →
      (LoadS3ConfigFromEnv env).region = "auto")
    ∧ (∀ env2 : String → Option String,
        (∀ k, osGetenv env k = osGetenv env2 k) →
        LoadS3ConfigFromEnv env = LoadS3ConfigFromEnv env2) := by
  refine ⟨?_, ?_, ?_⟩
  · intro h
    show getEnvOrDefault env "S3_BUCKET_NAME" "default" = "default"
    unfold getEnvOrDefault osGetenv
    rcases h with h | h <;> rw [h] <;> simp
  · intro h
    show getEnvOrDefault env "S3_REGION" "auto" = "auto"
    unfold getEnvOrDefault osGetenv
    rcases h with h | h <;> rw [h] <;> simp
  · intro env2 h
    unfold LoadS3ConfigFromEnv getEnvOrDefault
    simp only [h]

/-- C10 witness: an environment with `S3_BUCKET_NAME` set to the empty
string and everything else unset behaves exactly like the empty
environment. -/
def envEmptyBucket : String → Option String :=
  fun k => if k = "S3_BUCKET_NAME" then some "" else none

theorem claim10_witness :
    (LoadS3ConfigFromEnv envEmptyBucket).bucketName = "default"
    ∧ (LoadS3ConfigFromEnv envEmptyBucket).region = "auto"
    ∧ LoadS3ConfigFromEnv envEmptyBucket = LoadS3ConfigFromEnv (fun _ => none) := by
  have h := claim10 envEmptyBucket
  refine ⟨h.1 (Or.inr (by simp [envEmptyBucket])), h.2.1 (Or.inl (by simp [envEmptyBucket])), ?_⟩
  refine h.2.2 (fun _ => none) (fun k => ?_)
  by_cases hk : k = "S3_BUCKET_NAME" <;> simp [osGetenv, envEmptyBucket, hk]

theorem head_append (l m : List Char) (a : Char) (h : l.head? = some a) :
    (l ++ m).head? = some a := by
  cases l with
  | nil => exact Option.noConfusion h
  | cons b bs =>
    have hb : b = a := Option.some.inj (show some b = some a from h)
    subst hb
    rfl

/-- The environment scope never starts with a separator. -/
theorem scope_head (c : StorageClient) :
    ∃ a, (envScope c).data.head? = some a ∧ a ≠ '/' := by
  obtain ⟨bn, env, du⟩ := c
  cases env with
  | development =>
    by_cases hdu : du = ""
    · subst hdu
      exact ⟨'d', rfl, by decide⟩
    · refine ⟨'d', ?_, by decide⟩
      have hs : envScope ⟨bn, .development, du⟩ = "dev/dev-" ++ du ++ "/" := by
        show (if du ≠ "" then "dev/dev-" ++ du ++ "/" else "dev/") = _
        rw [if_pos hdu]
      rw [hs, data_append, data_append]
      rfl
  | staging => exact ⟨'s', rfl, by decide⟩
  | production => exact ⟨'p', rfl, by decide⟩

theorem cleanRel_of_plainStr (a : String) (ha : plainStr a) : CleanRel a := by
  intro s hs
  rw [splitSeg_no_slash a.data ha.2] at hs
  rw [List.mem_singleton] at hs
  subst hs
  exact ha.1

/-- A trailing separator on the caller path never changes the built key
(`Clean` strips it). -/
theorem buildPath_trailing (c : StorageClient) (P : String) :
    c.buildPath (P ++ "/") = c.buildPath P := by
  obtain ⟨bn, env, du⟩ := c
  have hgo : ∀ t Q : String, ¬ t = "" → goJoin [t, Q] = clean (t ++ "/" ++ Q) := by
    intro t Q ht
    rw [goJoin, if_neg ht]
    rfl
  have hgo3 : ∀ t x Q : String, ¬ t = "" →
      goJoin [t, x, Q] = clean (t ++ "/" ++ (x ++ "/" ++ Q)) := by
    intro t x Q ht
    rw [goJoin, if_neg ht]
    rfl
  have key2 : ∀ t : String, ¬ t = "" → goJoin [t, P ++ "/"] = goJoin [t, P] := by
    intro t ht
    rw [hgo t (P ++ "/") ht, hgo t P ht]
    rw [show t ++ "/" ++ (P ++ "/") = (t ++ "/" ++ P) ++ "/" from by
      apply strExt
      simp only [data_append, List.append_assoc]]
    rw [clean_trailing]
  cases env with
  | development =>
    have hred1 : StorageClient.buildPath ⟨bn, .development, du⟩ (P ++ "/") =
        if du ≠ "" then goJoin [envString .development, "dev-" ++ du, P ++ "/"]
        else goJoin [envString .development, P ++ "/"] := rfl
    have hred2 : StorageClient.buildPath ⟨bn, .development, du⟩ P =
        if du ≠ "" then goJoin [envString .development, "dev-" ++ du, P]
        else goJoin [envString .development, P] := rfl
    rw [hred1, hred2]
    by_cases hdu : du = ""
    · rw [if_neg (by simp [hdu]), if_neg (by simp [hdu])]
      exact key2 (envString .development) (by decide)
    · rw [if_pos hdu, if_pos hdu]
      rw [hgo3 (envString .development) ("dev-" ++ du) (P ++ "/") (by decide),
        hgo3 (envString .development) ("dev-" ++ du) P (by decide)]
      show clean ("dev" ++ "/" ++ (("dev-" ++ du) ++ "/" ++ (P ++ "/"))) =
        clean ("dev" ++ "/" ++ (("dev-" ++ du) ++ "/" ++ P))
      rw [show ("dev" : String) ++ "/" ++ (("dev-" ++ du) ++ "/" ++ (P ++ "/")) =
          ("dev" ++ "/" ++ (("dev-" ++ du) ++ "/" ++ P)) ++ "/" from by
        apply strExt
        simp only [data_append, List.append_assoc]]
      rw [clean_trailing]
  | staging => exact key2 (envString .staging) (by decide)
  | production => exact key2 (envString .production) (by decide)

/-- Extending a plain store identifier on the right by any slash-free
string keeps it a plain identifier: the extension cannot reach `""`, `.`
or `..`, because the plain identifier is a non-empty non-dot head of the
result. -/
theorem plainStr_append_right (S T : String) (hS : plainStr S)
    (hT : '/' ∉ T.data) : plainStr (S ++ T) := by
  have hdata : (S ++ T).data = S.data ++ T.data := data_append S T
  refine ⟨⟨?_, ?_, ?_⟩, ?_⟩
  · rw [hdata]
    intro h
    rcases hd : S.data with _ | ⟨c, cs⟩
    · exact hS.1.1 hd
    · rw [hd, List.cons_append] at h
      exact List.noConfusion h
  · rw [hdata]
    intro h
    rcases hd : S.data with _ | ⟨c, cs⟩
    · exact hS.1.1 hd
    · rw [hd, List.cons_append] at h
      injection h with h1 h2
      rcases hcs : cs with _ | ⟨d, ds⟩
      · apply hS.1.2.1
        rw [hd, hcs, h1]
      · rw [hcs, List.cons_append] at h2
        exact List.noConfusion h2
  · rw [hdata]
    intro h
    rcases hd : S.data with _ | ⟨c, cs⟩
    · exact hS.1.1 hd
    · rw [hd, List.cons_append] at h
      injection h with h1 h2
      rcases hcs : cs with _ | ⟨d, ds⟩
      · rw [hcs, List.nil_append] at h2
        apply hS.1.2.1
        rw [hd, hcs, h1]
      · rw [hcs, List.cons_append] at h2
        injection h2 with h3 h4
        rcases hds : ds with _ | ⟨e, es⟩
        · apply hS.1.2.2
          rw [hd, hcs, hds, h1, h3]
        · rw [hds, List.cons_append] at h4
          exact List.noConfusion h4
  · rw [hdata]
    intro h
    rw [List.mem_append] at h
    rcases h with h | h
    · exact hS.2 h
    · exact hT h

/-- C1 (amended): for any clean relative logical path P (non-empty
elements, none `.` or `..`) and a dev user without separator, the csv key
is exactly the environment scope followed by `csv/P`; it never has a
leading slash; and in development with a non-empty dev user the second
segment is `dev-<user>` (not the bare user name the spec's `E/U/` reads
as). -/
theorem claim1_amended (c : StorageClient) (P : String)
    (hu : '/' ∉ c.devUser.data) (hP : CleanRel P) :
    csvKey c P = envScope c ++ "csv/" ++ P
    ∧ (csvKey c P).data.head? ≠ some '/'
    ∧ (c.environment = .development → c.devUser ≠ "" →
        csvKey c P = "dev/dev-" ++ c.devUser ++ "/csv/" ++ P) := by
  have h1 := csvKey_cleanRel c P (fun _ => hu) hP
  refine ⟨h1, ?_, ?_⟩
  · obtain ⟨a, ha, hne⟩ := scope_head c
    have h2 : (csvKey c P).data.head? = some a := by
      rw [h1, data_append, data_append]
      exact head_append _ _ a (head_append _ _ a ha)
    rw [h2]
    intro hcontra
    injection hcontra with hcontra
    exact hne hcontra
  · intro henv hdu
    rw [h1]
    have hs : envScope c = "dev/dev-" ++ c.devUser ++ "/" := by
      obtain ⟨bn, env, du⟩ := c
      cases env with
      | development =>
        show (if du ≠ "" then "dev/dev-" ++ du ++ "/" else "dev/") = _
        rw [if_pos hdu]
      | staging => exact Environment.noConfusion henv
      | production => exact Environment.noConfusion henv
    rw [hs]
    apply strExt
    simp only [data_append, List.append_assoc]
    rfl

/-- C1 counterexample: with dev user `alice` the key's second segment is
`dev-alice`, so the key does not start with `dev/alice/csv/...` as the
claim's `E/U/` reads; and with the logical path `..` (cleaned away by
`filepath.Join`) even the `E/csv/P` shape fails. -/
theorem claim1_cex :
    csvKey exClientAlice "x.csv" = "dev/dev-alice/csv/x.csv"
    ∧ ¬ (∃ rest : String,
        csvKey exClientAlice "x.csv" = "dev/alice/" ++ "csv/x.csv" ++ rest)
    ∧ csvKey exClientProd ".." = "prod"
    ∧ ¬ (∃ rest : String, csvKey exClientProd ".." = "prod/" ++ "csv/.." ++ rest) := by
  refine ⟨rfl, ?_, rfl, ?_⟩
  · rintro ⟨rest, hr⟩
    have hd := congrArg String.data hr
    rw [data_append, data_append] at hd
    exact absurd
      (listStarts_of_append ("dev/alice/".data ++ "csv/x.csv".data) _ rest.data hd)
      (by decide)
  · rintro ⟨rest, hr⟩
    have hd := congrArg String.data hr
    rw [data_append, data_append] at hd
    exact absurd
      (listStarts_of_append ("prod/".data ++ "csv/..".data) _ rest.data hd)
      (by decide)

/-- C1 witness at a concrete clean path. -/
theorem claim1_witness :
    ('/' ∉ exClientAlice.devUser.data) ∧ CleanRel "reports/2024.csv"
    ∧ csvKey exClientAlice "reports/2024.csv" = "dev/dev-alice/csv/reports/2024.csv" :=
  ⟨by decide, by decide,
   (claim1_amended exClientAlice "reports/2024.csv" (by decide) (by decide)).1⟩

/-- C2 (amended): assuming the dev user contains no separator, every key
the client sends extends the environment scope `envScope` — which itself
starts with the environment segment, and in development with a dev user
set has `dev-<user>` as second segment.  Upload/Download/List csv keys and
image keys are covered for every `..`-free logical path (a path with `..`
elements escapes the scope: see the counterexample); the key downloaded by
`GetLatestScrapedFile` is covered whenever the backend listing honoured the
requested key range and some listed file is after the zero time. -/
theorem claim2_amended (c : StorageClient) (hu : '/' ∉ c.devUser.data) :
    (∃ q : String, envScope c = envString c.environment ++ "/" ++ q)
    ∧ (c.environment = .development → c.devUser ≠ "" →
        envScope c = envString c.environment ++ "/" ++ ("dev-" ++ c.devUser ++ "/"))
    ∧ (∀ P, NoDotDot P → ∃ r, csvKey c P = envScope c ++ r)
    ∧ (∀ P, NoDotDot P → ∃ r, imagesKey c P = envScope c ++ r)
    ∧ (∀ (files : List FileInfo) (store : String) (f : FileInfo),
        (∀ g ∈ files, ∃ r, g.key = csvKey c ("scraped/" ++ store ++ "/") ++ r) →
        NoDotDot ("scraped/" ++ store ++ "/") →
        f ∈ files → 0 < f.lastModified →
        ∃ r, (latestOf files).key = envScope c ++ r) := by
  refine ⟨?_, ?_, fun P hP => csvKey_scope c P (fun _ => hu) hP,
    fun P hP => imagesKey_scope c P (fun _ => hu) hP, ?_⟩
  · obtain ⟨bn, env, du⟩ := c
    cases env with
    | development =>
      by_cases hdu : du = ""
      · subst hdu
        exact ⟨"", rfl⟩
      · refine ⟨"dev-" ++ du ++ "/", ?_⟩
        show (if du ≠ "" then "dev/dev-" ++ du ++ "/" else "dev/") = _
        rw [if_pos hdu]
        apply strExt
        simp only [data_append, List.append_assoc]
        rfl
    | staging => exact ⟨"", rfl⟩
    | production => exact ⟨"", rfl⟩
  · intro henv hdu
    obtain ⟨bn, env, du⟩ := c
    cases env with
    | development =>
      show (if du ≠ "" then "dev/dev-" ++ du ++ "/" else "dev/") = _
      rw [if_pos hdu]
      apply strExt
      simp only [data_append, List.append_assoc]
      rfl
    | staging => exact Environment.noConfusion henv
    | production => exact Environment.noConfusion henv
  · intro files store f hhonest hnd hf hpos
    obtain ⟨r1, hr1⟩ := hhonest (latestOf files) (latestOf_mem files f hf hpos)
    obtain ⟨r2, hr2⟩ := csvKey_scope c ("scraped/" ++ store ++ "/") (fun _ => hu) hnd
    refine ⟨r2 ++ r1, ?_⟩
    rw [hr1, hr2, strAppend_assoc]

/-- C2 counterexample: a logical path climbing out with `..` produces a key
outside the environment scope (here the bare key `x` in production). -/
theorem claim2_cex :
    csvKey exClientProd "../../x" = "x"
    ∧ ¬ (∃ r : String, csvKey exClientProd "../../x" = envScope exClientProd ++ r) := by
  refine ⟨rfl, ?_⟩
  rintro ⟨r, hr⟩
  have hd := congrArg String.data hr
  rw [data_append] at hd
  exact absurd (listStarts_of_append (envScope exClientProd).data _ r.data hd)
    (by decide)

/-- C2 witness: a development client with dev user `alice`; a csv key and a
latest-file download key, both inside the scope `dev/dev-alice/`. -/
theorem claim2_witness :
    ('/' ∉ exClientAlice.devUser.data)
    ∧ (∃ r, csvKey exClientAlice "a/b.csv" = envScope exClientAlice ++ r)
    ∧ (∃ r, (latestOf [⟨"dev/dev-alice/csv/scraped/s/f", 1, 5⟩]).key =
        envScope exClientAlice ++ r) := by
  have h := claim2_amended exClientAlice (by decide)
  refine ⟨by decide, h.2.2.1 "a/b.csv" (by decide), ?_⟩
  refine h.2.2.2.2 [⟨"dev/dev-alice/csv/scraped/s/f", 1, 5⟩] "s"
    ⟨"dev/dev-alice/csv/scraped/s/f", 1, 5⟩ ?_ (by decide) (by simp) (by decide)
  intro g hg
  rw [List.mem_singleton] at hg
  subst hg
  exact ⟨"/f", by decide⟩

/-- C3 (amended): if the listing under `scraped/<store>/` succeeds with
files of pairwise-distinct last-modified timestamps, and the maximal
timestamp is strictly after the zero value of the timestamp type, then
`GetLatestScrapedFile` downloads and returns exactly the content of the
maximal file — whatever order the listing used.  (Without the zero-value
hypothesis the zero sentinel of the linear scan survives: see the
counterexample.) -/
theorem claim3_amended (b : Backend) (c : StorageClient) (store : String)
    (objs : List S3Object) (o : S3Object)
    (hlist : b.listObjectsV2 c.bucketName (csvKey c ("scraped/" ++ store ++ "/")) = .ok objs)
    (hdist : objs.Pairwise (fun x y => x.lastModified ≠ y.lastModified))
    (ho : o ∈ objs) (hmax : ∀ x ∈ objs, x.lastModified ≤ o.lastModified)
    (hpos : 0 < o.lastModified) :
    GetLatestScrapedFile b c store = b.getObject c.bucketName o.key := by
  have hkey : latestOf (objs.map fun x => FileInfo.mk x.key x.size x.lastModified) =
      FileInfo.mk o.key o.size o.lastModified := by
    apply latestOf_max
    · exact List.mem_map_of_mem _ ho
    · intro g hg
      obtain ⟨x, hx, rfl⟩ := List.mem_map.mp hg
      by_cases hxo : x = o
      · subst hxo
        exact Or.inl rfl
      · refine Or.inr ?_
        have hne : x.lastModified ≠ o.lastModified :=
          List.Pairwise.forall (R := fun x y : S3Object => x.lastModified ≠ y.lastModified)
            (fun _ _ h hh => h hh.symm) hdist hx ho hxo
        exact lt_of_le_of_ne (hmax x hx) hne
    · exact hpos
  have hempty : (objs.map fun x => FileInfo.mk x.key x.size x.lastModified).isEmpty = false := by
    rcases objs with _ | ⟨a, as⟩
    · exact absurd ho (by simp)
    · rfl
  unfold GetLatestScrapedFile ListCSVFiles
  rw [hlist]
  show (if (objs.map fun x => FileInfo.mk x.key x.size x.lastModified).isEmpty = true
      then (Except.error "no files found" : Except String Bytes)
      else b.getObject c.bucketName
        (latestOf (objs.map fun x => FileInfo.mk x.key x.size x.lastModified)).key) =
    b.getObject c.bucketName o.key
  rw [if_neg (by simp [hempty]), hkey]

/-- C3 counterexample: a store with a single file (timestamps trivially
pairwise distinct, the file maximal) whose last-modified equals the zero
value of `time.Time`: the scan keeps the zero sentinel, so the code
requests the empty key and fails with `NoSuchKey` instead of returning the
file's content `[7]`. -/
theorem claim3_cex :
    (mkBackend [⟨"dev/csv/scraped/s/a", [7], 0⟩]).listObjectsV2 exClientDev.bucketName
        (csvKey exClientDev ("scraped/" ++ "s" ++ "/")) = .ok [⟨"dev/csv/scraped/s/a", 1, 0⟩]
    ∧ (mkBackend [⟨"dev/csv/scraped/s/a", [7], 0⟩]).getObject exClientDev.bucketName
        "dev/csv/scraped/s/a" = .ok [7]
    ∧ GetLatestScrapedFile (mkBackend [⟨"dev/csv/scraped/s/a", [7], 0⟩]) exClientDev "s" =
        .error "NoSuchKey"
    ∧ (Except.error "NoSuchKey" : Except String Bytes) ≠ Except.ok [7] :=
  ⟨rfl, rfl, rfl, fun h => Except.noConfusion h⟩

/-- Backend used for the C3 witness: three files of one store, the most
recent one (timestamp 30, content `[3]`) listed in the middle. -/
def ex3Backend : Backend :=
  mkBackend [⟨"dev/csv/scraped/s/a", [1], 5⟩, ⟨"dev/csv/scraped/s/c", [3], 30⟩,
    ⟨"dev/csv/scraped/s/b", [2], 10⟩]

/-- C3 witness: with timestamps 5 < 10 < 30 listed out of order, the
content of the timestamp-30 file is returned. -/
theorem claim3_witness :
    GetLatestScrapedFile ex3Backend exClientDev "s" = Except.ok [3] :=
  claim3_amended ex3Backend exClientDev "s"
    [⟨"dev/csv/scraped/s/a", 1, 5⟩, ⟨"dev/csv/scraped/s/c", 1, 30⟩,
     ⟨"dev/csv/scraped/s/b", 1, 10⟩]
    ⟨"dev/csv/scraped/s/c", 1, 30⟩ rfl (by decide) (by decide) (by decide) (by decide)

/-- C9: key construction is lexically cleaned, so a trailing separator on
the caller's `scraped/<store>/` path is stripped: the listing of store S
(used by both `ListCSVFiles` and `GetLatestScrapedFile`) queries the
backend with a key range ending in `.../csv/scraped/S` (no trailing
separator), identical to the key built without the slash; hence for EVERY
other store whose name begins with the string S — i.e. every store
`S ++ T` with slash-free extension `T` — and every clean relative path F
below it, the built object key literally extends the S-listing key, so the
prefix-filtered listing also matches it. -/
theorem claim9 (c : StorageClient) (S : String) (hu : '/' ∉ c.devUser.data)
    (hS : plainStr S) :
    csvKey c ("scraped/" ++ S ++ "/") = csvKey c ("scraped/" ++ S)
    ∧ csvKey c ("scraped/" ++ S ++ "/") = envScope c ++ "csv/scraped/" ++ S
    ∧ (∀ T F : String, '/' ∉ T.data → CleanRel F →
        csvKey c ("scraped/" ++ (S ++ T) ++ "/" ++ F) =
          csvKey c ("scraped/" ++ S ++ "/") ++ (T ++ "/" ++ F)) := by
  have h1 : csvKey c ("scraped/" ++ S ++ "/") = csvKey c ("scraped/" ++ S) := by
    unfold csvKey
    rw [show ("csv/" : String) ++ ("scraped/" ++ S ++ "/") =
        ("csv/" ++ ("scraped/" ++ S)) ++ "/" from by
      apply strExt
      simp only [data_append, List.append_assoc]]
    rw [buildPath_trailing]
  have hCR : CleanRel ("scraped/" ++ S) := by
    rw [show ("scraped/" : String) ++ S = "scraped" ++ "/" ++ S from by
      apply strExt
      simp only [data_append, List.append_assoc]
      rfl]
    exact cleanRel_append "scraped" S (by decide) (cleanRel_of_plainStr S hS)
  have h2 : csvKey c ("scraped/" ++ S ++ "/") = envScope c ++ "csv/scraped/" ++ S := by
    rw [h1, csvKey_cleanRel c ("scraped/" ++ S) (fun _ => hu) hCR]
    apply strExt
    simp only [data_append, List.append_assoc]
    rfl
  refine ⟨h1, h2, ?_⟩
  intro T F hT hF
  rw [show ("scraped/" : String) ++ (S ++ T) ++ "/" ++ F =
      "scraped" ++ "/" ++ ((S ++ T) ++ "/" ++ F) from by
    apply strExt
    simp only [data_append, List.append_assoc]
    rfl]
  rw [csvKey_cleanRel c ("scraped" ++ "/" ++ ((S ++ T) ++ "/" ++ F)) (fun _ => hu)
    (cleanRel_append "scraped" _ (by decide)
      (cleanRel_append (S ++ T) F (plainStr_append_right S T hS hT) hF))]
  rw [h2]
  apply strExt
  simp only [data_append, List.append_assoc]
  rfl

/-- C9 witness: store `shop` in production; the listing key has no
trailing separator, and the key of a file of the distinct store `shopify`
(extension `ify`) extends it. -/
theorem claim9_witness :
    csvKey exClientProd ("scraped/" ++ "shop" ++ "/") = "prod/csv/scraped/shop"
    ∧ csvKey exClientProd ("scraped/" ++ "shop" ++ "/") =
        csvKey exClientProd ("scraped/" ++ "shop")
    ∧ csvKey exClientProd ("scraped/" ++ ("shop" ++ "ify") ++ "/" ++ "f.csv") =
        csvKey exClientProd ("scraped/" ++ "shop" ++ "/") ++ ("ify" ++ "/" ++ "f.csv") := by
  have h := claim9 exClientProd "shop" (by decide) (by decide)
  exact ⟨h.2.1, h.1, h.2.2 "ify" "f.csv" (by decide) (by decide)⟩

end Storage
